import Mathlib

/-!
# Verification of the bounded overwrite-on-full queue (`src/QueueTest/queue.h`)

Shallow embedding of the C++ class `Queue<T>`: a fixed-capacity circular
buffer with fields `elements`, `size`, `count`, `front`, `rear`, protected by
a mutex and a condition variable. Every public operation's critical section
is a sequential state transformation on those fields; the embedding models
exactly those transformations. All C++ `int` fields are provably
non-negative in every reachable state (the constructor zeroes them and every
update is `+1`, `-1` guarded by `count > 0`, or `% size` with `size > 0`),
and C++ `%` on non-negative operands agrees with `Nat.mod`, so the fields
are embedded as `Nat`. The constructor parameter is kept as `Int` because
the source performs no sign check on it.

Concurrency is modelled from the single-thread view of one critical section:
`Pop`'s unbounded `cond_var.wait` returns only when `count > 0`, embedded as
`Option` (`none` = the call never returns because no element is available
and, within the model, nothing is pushed concurrently); `PopWithTimeout`'s
`wait_for` evaluates the predicate `count > 0` and, since no concurrent
producer exists in the model, its truth value cannot change while waiting,
so the call pops if `count > 0` and otherwise throws after the wait —
independently of the `milliseconds` argument, which is therefore unused.
-/

/-- State of `Queue<T>` (`src/QueueTest/queue.h`): dynamic array `elements`,
capacity `size`, live-element count `count`, oldest index `front`, next
write index `rear`. The storage is a total function; slots outside the live
range hold junk values that are never read. -/
structure Queue (α : Type) where
  elements : Nat → α
  size : Nat
  count : Nat
  front : Nat
  rear : Nat

namespace Queue

variable {α : Type}

/-- Embeds the constructor `Queue(int size) : size(size), count(0), front(0),
rear(0) { elements = new T[size]; }`. There is no capacity check: for a
negative argument `new T[size]` throws `std::bad_array_new_length` (embedded
as `none`); for any `size ≥ 0`, including `0`, construction succeeds. The
fresh storage is default-initialized junk, never read before written. -/
def construct [Inhabited α] (size : Int) : Option (Queue α) :=
  if size < 0 then none
  else some { elements := fun _ => default, size := size.toNat,
              count := 0, front := 0, rear := 0 }

/-- Embeds `Queue::Push` (queue.h lines 41–55): if full, advance `front`
(dropping the oldest element) and leave `count`; otherwise increment
`count`; then write `element` at slot `rear` and advance `rear`. The
function is total: `Push` never blocks and never fails. -/
def Push (q : Queue α) (element : α) : Queue α :=
  let q' := if q.count = q.size
    then { q with front := (q.front + 1) % q.size }
    else { q with count := q.count + 1 }
  { q' with elements := fun i => if i = q'.rear then element else q'.elements i,
            rear := (q'.rear + 1) % q'.size }

/-- Embeds `Queue::Pop` (queue.h lines 62–72): wait until `count > 0`, then
read the element at `front`, advance `front`, decrement `count`. `none`
models the wait never finishing because the queue stays empty. -/
def Pop (q : Queue α) : Option (α × Queue α) :=
  if 0 < q.count then
    some (q.elements q.front,
          { q with front := (q.front + 1) % q.size, count := q.count - 1 })
  else none

/-- Embeds `Queue::PopWithTimeout` (queue.h lines 81–93): a `wait_for`
bounded by `milliseconds`; if the predicate `count > 0` holds it dequeues
exactly as `Pop`, otherwise it throws `runtime_error("Timeout: No elements
in queue")`. The result pairs the thrown-or-returned value with the
post-call state so that the absence of mutation on the throwing path is
explicit. -/
def PopWithTimeout (q : Queue α) (milliseconds : Int) : Except String α × Queue α :=
  if 0 < q.count then
    (Except.ok (q.elements q.front),
     { q with front := (q.front + 1) % q.size, count := q.count - 1 })
  else
    (Except.error "Timeout: No elements in queue", q)

/-- Embeds `Queue::Count` (queue.h): returns `count` under the lock; no
state change. -/
def Count (q : Queue α) : Nat := q.count

/-- Embeds `Queue::Size` (queue.h lines 110–112): returns the immutable
capacity `size`; no state change. -/
def Size (q : Queue α) : Nat := q.size

/-- One public mutating call on the queue. -/
inductive Op (α : Type) where
  | push (x : α)
  | pop
  | popWithTimeout (ms : Int)

/-- Post-state of one call: a `Pop` that never returns, or a
`PopWithTimeout` that throws, leaves the state as it was. -/
def step (q : Queue α) : Op α → Queue α
  | Op.push x => q.Push x
  | Op.pop => match q.Pop with
      | some (_, q') => q'
      | none => q
  | Op.popWithTimeout ms => (q.PopWithTimeout ms).2

/-- State after a sequence of calls. -/
def run (q : Queue α) (ops : List (Op α)) : Queue α :=
  ops.foldl step q

/-- The representation invariant of the circular buffer (spec §3); the two
`0 ≤ _` bounds of the spec are carried by the `Nat` field types. -/
structure Inv (q : Queue α) : Prop where
  size_pos : 0 < q.size
  count_le : q.count ≤ q.size
  front_lt : q.front < q.size
  rear_lt : q.rear < q.size
  rear_eq : q.rear = (q.front + q.count) % q.size

/-- The live contents, oldest first: slot `(front + i) % size` holds the
`i`-th oldest element. -/
def toList (q : Queue α) : List α :=
  (List.range q.count).map (fun i => q.elements ((q.front + i) % q.size))

/-- A sequence of `Push` calls, first element pushed first. -/
def PushAll (q : Queue α) (xs : List α) : Queue α :=
  xs.foldl Push q

/-- A sequence of `n` successive `Pop` calls, collecting the returned
elements in order; stops if a `Pop` blocks. -/
def PopList (q : Queue α) : Nat → List α × Queue α
  | 0 => ([], q)
  | Nat.succ n =>
      match q.Pop with
      | some (a, q') => (a :: (q'.PopList n).1, (q'.PopList n).2)
      | none => ([], q)

/-- Effect of one `Push` on the live contents, on either side of the
capacity boundary. -/
def pushedList (N : Nat) (l : List α) (x : α) : List α :=
  if l.length = N then l.drop 1 ++ [x] else l ++ [x]

/-- The empty capacity-2 queue over `Int`, as built by `Queue<int> q(2)`;
used to instantiate the general theorems at concrete inputs. -/
def q2 : Queue Int :=
  { elements := fun _ => default, size := 2, count := 0, front := 0, rear := 0 }

/-- A concrete capacity-2 queue holding the single element `9`. -/
def qone : Queue Int :=
  { elements := fun _ => 9, size := 2, count := 1, front := 0, rear := 1 }

/-- A concrete mixed call sequence used to instantiate the frame theorems. -/
def opsW : List (Op Int) :=
  [Op.push 5, Op.pop, Op.popWithTimeout 100, Op.push 6, Op.push 7, Op.push 8]

/-- A full `Push` advances `front`, keeps `count`, writes at the old `rear`
and advances `rear`. -/
theorem Push_eq_full (q : Queue α) (x : α) (h : q.count = q.size) :
    q.Push x = { q with front := (q.front + 1) % q.size,
                        elements := fun i => if i = q.rear then x else q.elements i,
                        rear := (q.rear + 1) % q.size } := by
  simp [Push, h]

/-- A non-full `Push` increments `count`, writes at the old `rear` and
advances `rear`. -/
theorem Push_eq_not_full (q : Queue α) (x : α) (h : q.count ≠ q.size) :
    q.Push x = { q with count := q.count + 1,
                        elements := fun i => if i = q.rear then x else q.elements i,
                        rear := (q.rear + 1) % q.size } := by
  simp [Push, h]

/-- On a non-empty queue `Pop` returns the slot at `front` and the state
with `front` advanced and `count` decremented. -/
theorem Pop_eq_some (q : Queue α) (h : 0 < q.count) :
    q.Pop = some (q.elements q.front,
      { q with front := (q.front + 1) % q.size, count := q.count - 1 }) := by
  simp [Pop, h]

/-- On an empty queue `Pop` blocks forever (no result in the model). -/
theorem Pop_eq_none (q : Queue α) (h : q.count = 0) : q.Pop = none := by
  simp [Pop, h]

/-- On a non-empty queue `PopWithTimeout` dequeues exactly as `Pop`. -/
theorem PopWithTimeout_pos (q : Queue α) (ms : Int) (h : 0 < q.count) :
    q.PopWithTimeout ms = (Except.ok (q.elements q.front),
      { q with front := (q.front + 1) % q.size, count := q.count - 1 }) := by
  simp [PopWithTimeout, h]

/-- On an empty queue `PopWithTimeout` throws and returns the state
untouched. -/
theorem PopWithTimeout_empty (q : Queue α) (ms : Int) (h : q.count = 0) :
    q.PopWithTimeout ms = (Except.error "Timeout: No elements in queue", q) := by
  simp [PopWithTimeout, h]

/-- The dequeued state keeps the invariant. -/
theorem Inv.popAux {q : Queue α} (hq : Inv q) (h : 0 < q.count) :
    Inv { q with front := (q.front + 1) % q.size, count := q.count - 1 } := by
  refine ⟨hq.size_pos, ?_, Nat.mod_lt _ hq.size_pos, hq.rear_lt, ?_⟩
  · show q.count - 1 ≤ q.size
    have := hq.count_le
    omega
  · show q.rear = ((q.front + 1) % q.size + (q.count - 1)) % q.size
    rw [Nat.mod_add_mod, hq.rear_eq]
    congr 1
    omega

/-- `Push` preserves the invariant. -/
theorem Inv.push {q : Queue α} (hq : Inv q) (x : α) : Inv (q.Push x) := by
  by_cases h : q.count = q.size
  · rw [Push_eq_full q x h]
    refine ⟨hq.size_pos, hq.count_le, Nat.mod_lt _ hq.size_pos,
            Nat.mod_lt _ hq.size_pos, ?_⟩
    show (q.rear + 1) % q.size = ((q.front + 1) % q.size + q.count) % q.size
    rw [Nat.mod_add_mod, hq.rear_eq, Nat.mod_add_mod]
    congr 1
    omega
  · rw [Push_eq_not_full q x h]
    refine ⟨hq.size_pos, lt_of_le_of_ne hq.count_le h, hq.front_lt,
            Nat.mod_lt _ hq.size_pos, ?_⟩
    show (q.rear + 1) % q.size = (q.front + (q.count + 1)) % q.size
    rw [hq.rear_eq, Nat.mod_add_mod]
    congr 1

/-- `Pop` preserves the invariant. -/
theorem Inv.pop {q : Queue α} (hq : Inv q) {a : α} {q' : Queue α}
    (h : q.Pop = some (a, q')) : Inv q' := by
  by_cases h0 : 0 < q.count
  · rw [Pop_eq_some q h0] at h
    obtain ⟨h1, h2⟩ := Prod.mk.injEq .. ▸ Option.some.inj h
    exact h2 ▸ hq.popAux h0
  · simp [Pop, h0] at h

/-- Every call preserves the invariant. -/
theorem Inv.step {q : Queue α} (hq : Inv q) (op : Op α) : Inv (q.step op) := by
  cases op with
  | push x => exact hq.push x
  | pop =>
      cases hp : q.Pop with
      | none => simpa [Queue.step, hp] using hq
      | some p =>
          obtain ⟨a, q'⟩ := p
          simpa [Queue.step, hp] using hq.pop hp
  | popWithTimeout ms =>
      show Inv (q.PopWithTimeout ms).2
      by_cases h0 : 0 < q.count
      · rw [PopWithTimeout_pos q ms h0]
        exact hq.popAux h0
      · rw [PopWithTimeout_empty q ms (by omega)]
        exact hq

/-- Any sequence of calls preserves the invariant. -/
theorem Inv.run {q : Queue α} (hq : Inv q) (ops : List (Op α)) :
    Inv (q.run ops) := by
  induction ops generalizing q with
  | nil => exact hq
  | cons op rest ih => exact ih (hq.step op)

/-- A queue built with positive capacity satisfies the invariant. -/
theorem Inv.ofConstruct [Inhabited α] {c : Int} (h1 : 1 ≤ c) {q : Queue α}
    (h : construct c = some q) : Inv q := by
  unfold Queue.construct at h
  rw [if_neg (by omega)] at h
  injection h with h
  subst h
  exact ⟨by simp; omega, by simp, by simp; omega, by simp; omega, by simp⟩

/-- Offsets below the capacity are separated by the circular indexing. -/
theorem add_mod_inj {n : Nat} (f : Nat) {i j : Nat} (hi : i < n) (hj : j < n)
    (h : (f + i) % n = (f + j) % n) : i = j := by
  have h' : i % n = j % n := Nat.ModEq.add_left_cancel' f h
  rwa [Nat.mod_eq_of_lt hi, Nat.mod_eq_of_lt hj] at h'

/-- In a full queue the write index has wrapped around onto the oldest
element. -/
theorem rear_eq_front_of_full {q : Queue α} (hq : Inv q)
    (h : q.count = q.size) : q.rear = q.front := by
  rw [hq.rear_eq, h, Nat.add_mod_right, Nat.mod_eq_of_lt hq.front_lt]

theorem toList_length (q : Queue α) : q.toList.length = q.count := by
  simp [toList]

/-- A non-full `Push` appends the element to the live contents. -/
theorem toList_Push_not_full {q : Queue α} (hq : Inv q) (x : α)
    (h : q.count < q.size) : (q.Push x).toList = q.toList ++ [x] := by
  rw [Push_eq_not_full q x (Nat.ne_of_lt h)]
  simp only [toList, List.range_succ, List.map_append, List.map_cons,
    List.map_nil]
  congr 1
  · refine List.map_congr_left (fun i hi => ?_)
    have hi' : i < q.count := List.mem_range.mp hi
    rw [if_neg]
    intro hc
    rw [hq.rear_eq] at hc
    exact absurd (add_mod_inj q.front (lt_trans hi' h) h hc) (Nat.ne_of_lt hi')
  · rw [if_pos hq.rear_eq.symm]

/-- A full `Push` drops the oldest element and appends the new one. -/
theorem toList_Push_full {q : Queue α} (hq : Inv q) (x : α)
    (h : q.count = q.size) : (q.Push x).toList = q.toList.drop 1 ++ [x] := by
  obtain ⟨m, hm⟩ : ∃ m, q.count = m + 1 := ⟨q.count - 1, by
    have := hq.size_pos; omega⟩
  have hsz : 1 + m = q.size := by omega
  have hrear : q.rear = q.front := rear_eq_front_of_full hq h
  have hR : q.toList.drop 1 =
      (List.range m).map (fun i => q.elements ((q.front + (1 + i)) % q.size)) := by
    simp only [toList, hm, List.range_succ_eq_map, List.map_cons,
      List.drop_succ_cons, List.drop_zero, List.map_map]
    refine List.map_congr_left (fun i hi => ?_)
    simp only [Function.comp_apply]
    congr 2
    omega
  rw [Push_eq_full q x h, hR]
  simp only [toList, hm, List.range_succ, List.map_append, List.map_cons,
    List.map_nil]
  congr 1
  · refine List.map_congr_left (fun i hi => ?_)
    have hi' : i < m := List.mem_range.mp hi
    have hne : ¬((q.front + 1) % q.size + i) % q.size = q.rear := by
      rw [Nat.mod_add_mod]
      intro hc
      have hc' : (q.front + (1 + i)) % q.size = (q.front + 0) % q.size := by
        rw [Nat.add_zero, Nat.mod_eq_of_lt hq.front_lt, ← Nat.add_assoc]
        rw [hrear] at hc
        exact hc
      have h10 : 1 + i = 0 := add_mod_inj q.front (by omega) hq.size_pos hc'
      omega
    rw [if_neg hne, Nat.mod_add_mod, Nat.add_assoc]
  · have hcond : ((q.front + 1) % q.size + m) % q.size = q.rear := by
      rw [Nat.mod_add_mod, Nat.add_assoc, hsz, Nat.add_mod_right,
        Nat.mod_eq_of_lt hq.front_lt, hrear]
    rw [if_pos hcond]

/-- The live contents of a non-empty queue are the slot at `front` followed
by the contents of the dequeued state. -/
theorem toList_eq_cons {q : Queue α} (hq : Inv q) (h : 0 < q.count) :
    q.toList = q.elements q.front ::
      ({ q with front := (q.front + 1) % q.size,
                count := q.count - 1 } : Queue α).toList := by
  obtain ⟨m, hm⟩ : ∃ m, q.count = m + 1 := ⟨q.count - 1, by omega⟩
  simp only [toList, hm, List.range_succ_eq_map, List.map_cons, List.map_map,
    Nat.add_succ_sub_one, Nat.add_zero]
  congr 1
  · rw [Nat.mod_eq_of_lt hq.front_lt]
  · refine List.map_congr_left (fun i hi => ?_)
    simp only [Function.comp_apply, Nat.mod_add_mod]
    congr 2
    omega

/-- `Push` never changes the capacity field. -/
theorem Push_size (q : Queue α) (x : α) : (q.Push x).size = q.size := by
  by_cases h : q.count = q.size
  · rw [Push_eq_full q x h]
  · rw [Push_eq_not_full q x h]

/-- The live contents of a queue after a sequence of pushes are the abstract
fold of `pushedList` over the pushed elements. -/
theorem PushAll_toList : ∀ (xs : List α) (q : Queue α), Inv q →
    (q.PushAll xs).toList = xs.foldl (pushedList q.size) q.toList ∧
      Inv (q.PushAll xs) ∧ (q.PushAll xs).size = q.size := by
  intro xs
  induction xs with
  | nil => exact fun q hq => ⟨rfl, hq, rfl⟩
  | cons x rest ih =>
      intro q hq
      have hstep : (q.Push x).toList = pushedList q.size q.toList x := by
        unfold pushedList
        rw [toList_length]
        by_cases h : q.count = q.size
        · rw [if_pos h, toList_Push_full hq x h]
        · rw [if_neg h,
            toList_Push_not_full hq x (lt_of_le_of_ne hq.count_le h)]
      obtain ⟨h1, h2, h3⟩ := ih (q.Push x) (hq.push x)
      refine ⟨?_, h2, ?_⟩
      · show ((q.Push x).PushAll rest).toList =
          rest.foldl (pushedList q.size) (pushedList q.size q.toList x)
        rw [h1, hstep, Push_size]
      · show ((q.Push x).PushAll rest).size = q.size
        rw [h3, Push_size]

/-- Folding `pushedList` keeps only the most recent `N` values. -/
theorem foldl_pushedList {N : Nat} (hN : 1 ≤ N) :
    ∀ (xs l : List α), l.length ≤ N →
      xs.foldl (pushedList N) l = (l ++ xs).drop (l.length + xs.length - N) := by
  intro xs
  induction xs with
  | nil =>
      intro l hl
      simp [Nat.sub_eq_zero_of_le hl]
  | cons x rest ih =>
      intro l hl
      show rest.foldl (pushedList N) (pushedList N l x) = _
      by_cases h : l.length = N
      · have hacc : (pushedList N l x).length = N := by
          simp [pushedList, if_pos h]
          omega
        rw [ih (pushedList N l x) (le_of_eq hacc)]
        rw [hacc]
        simp only [pushedList, if_pos h]
        have hdropped : (l.drop 1 ++ [x]) ++ rest = (l ++ x :: rest).drop 1 := by
          rw [List.drop_append_of_le_length (by omega), List.append_assoc,
            List.singleton_append]
        rw [hdropped, List.drop_drop]
        congr 1
        simp
        omega
      · have hlt : l.length < N := lt_of_le_of_ne hl h
        have hacc : (pushedList N l x).length = l.length + 1 := by
          simp [pushedList, if_neg h]
        rw [ih (pushedList N l x) (by omega)]
        rw [hacc]
        simp only [pushedList, if_neg h]
        rw [List.append_assoc, List.singleton_append]
        congr 1
        simp
        omega

/-- Popping a queue dry returns exactly its live contents in order. -/
theorem PopList_spec : ∀ (n : Nat) (q : Queue α), Inv q → q.count = n →
    (q.PopList n).1 = q.toList ∧ (q.PopList n).2.count = 0 := by
  intro n
  induction n with
  | zero =>
      intro q hq hc
      exact ⟨by simp [PopList, toList, hc], by simp [PopList, hc]⟩
  | succ n ih =>
      intro q hq hc
      have h0 : 0 < q.count := by omega
      have hpop := Pop_eq_some q h0
      have hinv' := hq.popAux h0
      have hcount' : q.count - 1 = n := by omega
      obtain ⟨ih1, ih2⟩ := ih _ hinv' hcount'
      constructor
      · show (q.PopList (n + 1)).1 = q.toList
        rw [toList_eq_cons hq h0]
        simp only [PopList, hpop]
        rw [ih1]
      · show (q.PopList (n + 1)).2.count = 0
        simp only [PopList, hpop]
        exact ih2

/-- Field values of a freshly constructed queue. -/
theorem construct_spec [Inhabited α] {c : Int} {q : Queue α}
    (h : construct c = some q) :
    q.size = c.toNat ∧ q.count = 0 ∧ q.front = 0 ∧ q.rear = 0 := by
  unfold Queue.construct at h
  by_cases hc : c < 0
  · rw [if_pos hc] at h
    cases h
  · rw [if_neg hc] at h
    injection h with h
    subst h
    exact ⟨rfl, rfl, rfl, rfl⟩

/-- No single call changes the capacity field. -/
theorem step_size (q : Queue α) (op : Op α) : (q.step op).size = q.size := by
  cases op with
  | push x => exact Push_size q x
  | pop =>
      by_cases h0 : 0 < q.count
      · simp [Queue.step, Pop_eq_some q h0]
      · simp [Queue.step, Pop_eq_none q (by omega)]
  | popWithTimeout ms =>
      show (q.PopWithTimeout ms).2.size = q.size
      by_cases h0 : 0 < q.count
      · rw [PopWithTimeout_pos q ms h0]
      · rw [PopWithTimeout_empty q ms (by omega)]

/-- No sequence of calls changes the capacity field. -/
theorem run_size (q : Queue α) (ops : List (Op α)) :
    (q.run ops).size = q.size := by
  induction ops generalizing q with
  | nil => rfl
  | cons op rest ih => exact (ih (q.step op)).trans (step_size q op)

/-- C1: for every queue of capacity `N ≥ 1`, pushing `N + k` elements
(`k ≥ 1`) with no intervening pops leaves exactly the last `N` pushed
elements retrievable, oldest evicted first: the subsequent pops return
`xs.drop k` in order and then the queue is empty. -/
theorem overflow_keeps_last [Inhabited α] (c : Int) (q0 : Queue α) (k : Nat)
    (xs : List α) (hc : 1 ≤ c) (hq : construct c = some q0) (hk : 1 ≤ k)
    (hlen : xs.length = q0.size + k) :
    ((q0.PushAll xs).PopList q0.size).1 = xs.drop k ∧
      ((q0.PushAll xs).PopList q0.size).2.count = 0 := by
  have hinv0 := Inv.ofConstruct hc hq
  have hcnt0 := (construct_spec hq).2.1
  have htl0 : q0.toList = [] := by simp [toList, hcnt0]
  obtain ⟨hPL, hPInv, hPsz⟩ := PushAll_toList xs q0 hinv0
  have hN : 1 ≤ q0.size := hinv0.size_pos
  have hfold := foldl_pushedList hN xs ([] : List α) (by simp)
  rw [htl0, hfold] at hPL
  simp only [List.nil_append, List.length_nil, Nat.zero_add] at hPL
  have hdrop : xs.length - q0.size = k := by omega
  rw [hdrop] at hPL
  have hcnt : (q0.PushAll xs).count = q0.size := by
    rw [← toList_length, hPL, List.length_drop]
    omega
  obtain ⟨h1, h2⟩ := PopList_spec q0.size (q0.PushAll xs) hPInv hcnt
  exact ⟨by rw [h1, hPL], h2⟩

/-- Witness for C1 at the spec's own example: capacity 2, push `1, 2, 3`;
the pop sequence returns `2` then `3`. -/
theorem overflow_keeps_last_witness :
    ((q2.PushAll [1, 2, 3]).PopList q2.size).1 = [2, 3] ∧
      ((q2.PushAll [1, 2, 3]).PopList q2.size).2.count = 0 :=
  overflow_keeps_last 2 q2 1 [1, 2, 3] (by decide) rfl (by decide) rfl

/-- C2: for every sequence of pushes that does not exceed the capacity,
successive pops return the pushed elements in push order, emptying the
queue. -/
theorem fifo_order [Inhabited α] (c : Int) (q0 : Queue α) (xs : List α)
    (hc : 1 ≤ c) (hq : construct c = some q0) (hlen : xs.length ≤ q0.size) :
    ((q0.PushAll xs).PopList xs.length).1 = xs ∧
      ((q0.PushAll xs).PopList xs.length).2.count = 0 := by
  have hinv0 := Inv.ofConstruct hc hq
  have hcnt0 := (construct_spec hq).2.1
  have htl0 : q0.toList = [] := by simp [toList, hcnt0]
  obtain ⟨hPL, hPInv, hPsz⟩ := PushAll_toList xs q0 hinv0
  have hN : 1 ≤ q0.size := hinv0.size_pos
  have hfold := foldl_pushedList hN xs ([] : List α) (by simp)
  rw [htl0, hfold] at hPL
  simp only [List.nil_append, List.length_nil, Nat.zero_add] at hPL
  have hdrop : xs.length - q0.size = 0 := by omega
  rw [hdrop, List.drop_zero] at hPL
  have hcnt : (q0.PushAll xs).count = xs.length := by
    rw [← toList_length, hPL]
  obtain ⟨h1, h2⟩ := PopList_spec xs.length (q0.PushAll xs) hPInv hcnt
  exact ⟨by rw [h1, hPL], h2⟩

/-- Witness for C2: capacity 2, push `4, 5`; pops return `4` then `5`. -/
theorem fifo_order_witness :
    ((q2.PushAll [4, 5]).PopList ([4, 5] : List Int).length).1 = [4, 5] ∧
      ((q2.PushAll [4, 5]).PopList ([4, 5] : List Int).length).2.count = 0 :=
  fifo_order 2 q2 [4, 5] (by decide) rfl (by decide)

/-- C3: `Push` on a full queue advances `front` modulo capacity and keeps
`count`; on a non-full queue it increments `count` and keeps `front`; in
both cases the element is written at the old slot `rear` and `rear`
advances modulo capacity. `Push` never fails: it is a total function. -/
theorem Push_effect (q : Queue α) (x : α) :
    (q.Push x).elements q.rear = x ∧
    (q.Push x).rear = (q.rear + 1) % q.size ∧
    (q.count = q.size →
      (q.Push x).front = (q.front + 1) % q.size ∧ (q.Push x).count = q.count) ∧
    (q.count ≠ q.size →
      (q.Push x).count = q.count + 1 ∧ (q.Push x).front = q.front) := by
  by_cases h : q.count = q.size
  · simp [Push_eq_full q x h, h]
  · simp [Push_eq_not_full q x h, h]

/-- Witness for C3 at a concrete queue and element. -/
theorem Push_effect_witness :
    (q2.Push 7).elements q2.rear = 7 ∧
    (q2.Push 7).rear = (q2.rear + 1) % q2.size ∧
    (q2.count = q2.size →
      (q2.Push 7).front = (q2.front + 1) % q2.size ∧
        (q2.Push 7).count = q2.count) ∧
    (q2.count ≠ q2.size →
      (q2.Push 7).count = q2.count + 1 ∧ (q2.Push 7).front = q2.front) :=
  Push_effect q2 7

/-- C4: for every queue constructed with capacity `≥ 1` and any sequence of
`Push` / `Pop` / `PopWithTimeout` calls, the invariants `count ≤ capacity`,
`rear = (front + count) mod capacity`, and `count = 0 → front = rear` hold
(the lower bounds `0 ≤ count`, `0 ≤ front`, `0 ≤ rear` are carried by the
`Nat` field types). -/
theorem invariants_preserved [Inhabited α] (c : Int) (q0 : Queue α)
    (ops : List (Op α)) (hc : 1 ≤ c) (hq : construct c = some q0) :
    (q0.run ops).count ≤ (q0.run ops).size ∧
    (q0.run ops).rear =
      ((q0.run ops).front + (q0.run ops).count) % (q0.run ops).size ∧
    ((q0.run ops).count = 0 → (q0.run ops).front = (q0.run ops).rear) := by
  have hi := (Inv.ofConstruct hc hq).run ops
  refine ⟨hi.count_le, hi.rear_eq, fun h0 => ?_⟩
  rw [hi.rear_eq, h0, Nat.add_zero, Nat.mod_eq_of_lt hi.front_lt]

/-- Witness for C4 at a concrete mixed call sequence. -/
theorem invariants_preserved_witness :
    (q2.run opsW).count ≤ (q2.run opsW).size ∧
    (q2.run opsW).rear =
      ((q2.run opsW).front + (q2.run opsW).count) % (q2.run opsW).size ∧
    ((q2.run opsW).count = 0 → (q2.run opsW).front = (q2.run opsW).rear) :=
  invariants_preserved 2 q2 opsW (by decide) rfl

/-- C5: a `PopWithTimeout` that fails with the timeout error leaves `front`,
`count`, and `rear` exactly as they were before the call. -/
theorem timeout_no_mutation (q : Queue α) (ms : Int) (e : String)
    (h : (q.PopWithTimeout ms).1 = Except.error e) :
    (q.PopWithTimeout ms).2.front = q.front ∧
    (q.PopWithTimeout ms).2.count = q.count ∧
    (q.PopWithTimeout ms).2.rear = q.rear := by
  by_cases h0 : 0 < q.count
  · rw [PopWithTimeout_pos q ms h0] at h
    simp at h
  · rw [PopWithTimeout_empty q ms (by omega)]
    exact ⟨rfl, rfl, rfl⟩

/-- Witness for C5: a timeout on the empty capacity-2 queue mutates
nothing. -/
theorem timeout_no_mutation_witness :
    (q2.PopWithTimeout 100).2.front = q2.front ∧
    (q2.PopWithTimeout 100).2.count = q2.count ∧
    (q2.PopWithTimeout 100).2.rear = q2.rear :=
  timeout_no_mutation q2 100 "Timeout: No elements in queue" rfl

/-- C6: on a non-empty queue, `PopWithTimeout` with any duration `≥ 0`
returns the same element and produces the same post-state (all fields,
storage included) as `Pop` on the same starting state. -/
theorem popWithTimeout_refines_pop (q : Queue α) (ms : Int) (hms : 0 ≤ ms)
    (h : 0 < q.count) :
    ∃ a q', q.Pop = some (a, q') ∧
      q.PopWithTimeout ms = (Except.ok a, q') :=
  ⟨q.elements q.front, _, Pop_eq_some q h, PopWithTimeout_pos q ms h⟩

/-- Witness for C6 on a concrete one-element queue with duration 5. -/
theorem popWithTimeout_refines_pop_witness :
    ∃ a q', qone.Pop = some (a, q') ∧
      qone.PopWithTimeout 5 = (Except.ok a, q') :=
  popWithTimeout_refines_pop qone 5 (by decide) (by decide)

/-- C7, failing input: the constructor performs no capacity check, so
construction with capacity `0` succeeds (producing an unusable queue whose
`Push` would divide by zero) instead of failing fast; there is no
`InvalidCapacity` error anywhere in the code. -/
theorem construct_skips_capacity_check :
    @construct Int _ 0 = some { elements := fun _ => (default : Int),
                                size := 0, count := 0, front := 0,
                                rear := 0 } := rfl

/-- C8: `PopWithTimeout` with a zero duration is an immediate non-blocking
check: it pops and returns the front element when `count > 0` and otherwise
fails at once with the timeout error, leaving the state unchanged. -/
theorem zero_duration_check (q : Queue α) :
    (0 < q.count → q.PopWithTimeout 0 = (Except.ok (q.elements q.front),
      { q with front := (q.front + 1) % q.size, count := q.count - 1 })) ∧
    (q.count = 0 →
      q.PopWithTimeout 0 = (Except.error "Timeout: No elements in queue", q)) :=
  ⟨fun h => PopWithTimeout_pos q 0 h, fun h => PopWithTimeout_empty q 0 h⟩

/-- Witness for C8 on a concrete one-element queue. -/
theorem zero_duration_check_witness :
    (0 < qone.count →
      qone.PopWithTimeout 0 = (Except.ok (qone.elements qone.front),
        { qone with front := (qone.front + 1) % qone.size,
                    count := qone.count - 1 })) ∧
    (qone.count = 0 →
      qone.PopWithTimeout 0 =
        (Except.error "Timeout: No elements in queue", qone)) :=
  zero_duration_check qone

/-- C9: `Size` returns the construction-time capacity for the whole life of
the queue: no sequence of `Push` / `Pop` / `PopWithTimeout` calls changes
it (`Count` reads `count` without mutating anything, so it cannot change it
either). -/
theorem Size_immutable [Inhabited α] (c : Int) (q0 : Queue α)
    (ops : List (Op α)) (hc : 1 ≤ c) (hq : construct c = some q0) :
    ((q0.run ops).Size : Int) = c ∧ (q0.run ops).Size = q0.Size := by
  have hs := run_size q0 ops
  have hsz := (construct_spec hq).1
  constructor
  · show ((q0.run ops).size : Int) = c
    rw [hs, hsz, Int.toNat_of_nonneg (by omega)]
  · exact hs

/-- Witness for C9 at a concrete call sequence on a capacity-2 queue. -/
theorem Size_immutable_witness :
    ((q2.run opsW).Size : Int) = 2 ∧ (q2.run opsW).Size = q2.Size :=
  Size_immutable 2 q2 opsW (by decide) rfl

/-- C10: after any prefix of calls on a queue of capacity `≥ 1`, `front`
and `rear` lie in `[0, capacity)` and the capacity is nonzero; since every
storage access in `Push`, `Pop`, and `PopWithTimeout` reads or writes the
current `rear` or `front`, no out-of-bounds access or division by zero in
`% size` can occur. -/
theorem index_safety [Inhabited α] (c : Int) (q0 : Queue α)
    (ops : List (Op α)) (hc : 1 ≤ c) (hq : construct c = some q0) :
    (q0.run ops).front < (q0.run ops).size ∧
    (q0.run ops).rear < (q0.run ops).size ∧ 0 < (q0.run ops).size := by
  have hi := (Inv.ofConstruct hc hq).run ops
  exact ⟨hi.front_lt, hi.rear_lt, hi.size_pos⟩

/-- Witness for C10 at a concrete overflowing call sequence. -/
theorem index_safety_witness :
    (q2.run opsW).front < (q2.run opsW).size ∧
    (q2.run opsW).rear < (q2.run opsW).size ∧ 0 < (q2.run opsW).size :=
  index_safety 2 q2 opsW (by decide) rfl

end Queue
